import Mathlib

/-!
Verification of the PDF keyword-paragraph-extraction pipeline (`src/app.py`)
against its natural-language specification.

Text is modelled as a list of characters (`Str := List Char`), mirroring how
Python strings behave under `len`, `strip`, `lower`, slicing and the `in`
substring test.  Each definition below is a direct translation of the
corresponding helper in `app.py`; the PDF byte parsing itself (PyPDF2) is an
external capability, so the pipeline is modelled from the per-page text stage
onwards, exactly as the spec's §6 boundary prescribes.
-/

namespace PdfApp

/-- Python strings, modelled as lists of characters. -/
abbrev Str := List Char

/-- Whitespace test used to model Python's `\s` / `str.strip` character class. -/
def isWs (c : Char) : Bool := c.isWhitespace

/-- Model of Python `str.lstrip()`: drop leading whitespace. -/
def lstrip (s : Str) : Str := s.dropWhile isWs

/-- Model of Python `str.rstrip()`: drop trailing whitespace. -/
def rstrip (s : Str) : Str := (s.reverse.dropWhile isWs).reverse

/-- Model of Python `str.strip()`: drop leading and trailing whitespace. -/
def strip (s : Str) : Str := rstrip (lstrip s)

/-- Model of Python `str.lower()`: lower-case every character. -/
def lower (s : Str) : Str := s.map Char.toLower

/-- Does `hay` start with `needle`?  Models Python `str.startswith`. -/
def startsWith : Str → Str → Bool
  | _, [] => true
  | [], _ :: _ => false
  | c :: hay, d :: nd => c == d && startsWith hay nd

/-- Model of the Python substring test `needle in hay`. -/
def containsSub (needle : Str) : Str → Bool
  | [] => needle.isEmpty
  | c :: rest => startsWith (c :: rest) needle || containsSub needle rest

/-- Substring occurrence as a proposition: `needle` occurs contiguously in
`hay`.  Used to state the specification-level matching property. -/
def SubstrOf (needle hay : Str) : Prop := ∃ pre post, hay = pre ++ needle ++ post

/-- Source `app.py` line 70: `[k.strip().lower() for k in keywords if k.strip()]`,
the keyword normalisation performed inside `filter_paragraphs`. -/
def parse_kws (keywords : List Str) : List Str :=
  keywords.filterMap fun k =>
    let s := strip k
    if s = [] then none else some (lower s)

/-- Source `app.py` lines 71-78: the `for p in paragraphs` loop body of
`filter_paragraphs` (skip short paragraphs, keep a paragraph when some
keyword occurs in its lower-cased text). -/
def matchLoop (kws : List Str) (min_len : Nat) : List Str → List Str
  | [] => []
  | p :: rest =>
    if p.length < min_len then matchLoop kws min_len rest
    else if kws.any (fun k => containsSub k (lower p)) then
      p :: matchLoop kws min_len rest
    else matchLoop kws min_len rest

/-- Source `app.py` lines 69-78: `filter_paragraphs(paragraphs, keywords, min_len)`. -/
def filter_paragraphs (paragraphs keywords : List Str) (min_len : Nat) : List Str :=
  matchLoop (parse_kws keywords) min_len paragraphs

/-- Source `app.py` line 56: `"\n".join(texts)`, the page texts joined with a
single newline between consecutive pages. -/
def joinPages : List Str → Str
  | [] => []
  | [t] => t
  | t :: t' :: ts => t ++ '\n' :: joinPages (t' :: ts)

/-- State machine implementing `re.split(r'\n{2,}', s)` (source `app.py`
line 59): the string is cut at every maximal run of two or more consecutive
newline characters.  `cur` is the current fragment accumulated in reverse,
`nl` the number of newline characters read but not yet committed. -/
def splitNl (cur : Str) (nl : Nat) : Str → List Str
  | [] =>
    if 2 ≤ nl then [cur.reverse, []]
    else [(List.replicate nl '\n' ++ cur).reverse]
  | c :: rest =>
    if c = '\n' then splitNl cur (nl + 1) rest
    else if 2 ≤ nl then cur.reverse :: splitNl [c] 0 rest
    else splitNl (c :: (List.replicate nl '\n' ++ cur)) 0 rest

/-- Source `app.py` line 59: `re.split(r'\n{2,}', full_text)`. -/
def rawSplit (s : Str) : List Str := splitNl [] 0 s

/-- Source `app.py` lines 48-64, from the per-page text stage onwards
(PDF byte parsing is delegated to the external PyPDF2 capability): join the
page texts with single newlines, split on blank-line runs, strip each
fragment and keep the non-empty ones in order.  This is the spec's
`segment` operation. -/
def segment (pages : List Str) : List Str :=
  ((rawSplit (joinPages pages)).map strip).filter (fun p => !p.isEmpty)

/-- State machine implementing `re.sub(r'\s+', ' ', t)` (source `app.py`
lines 67 and 145): every maximal run of whitespace characters is replaced by
a single space.  `pending` records whether the previous character was part of
a whitespace run whose space has already been emitted. -/
def subWs (pending : Bool) : Str → Str
  | [] => []
  | c :: rest =>
    if isWs c then
      if pending then subWs true rest else ' ' :: subWs true rest
    else c :: subWs false rest

/-- Source `app.py` lines 66-67: `normalize_text(t)`, display normalisation:
collapse whitespace runs to single spaces, then strip. -/
def normalize_text (t : Str) : Str := strip (subWs false t)

/-- Source `app.py` lines 139-145 helper: `" ".join(matched)`. -/
def joinSpace : List Str → Str
  | [] => []
  | [t] => t
  | t :: t' :: ts => t ++ ' ' :: joinSpace (t' :: ts)

/-- Character class of the regex `[a-z0-9]`, the characters kept (outside
whitespace) by the scrub on source `app.py` line 144. -/
def isLowerAlnum (c : Char) : Bool :=
  ('a' ≤ c && c ≤ 'z') || ('0' ≤ c && c ≤ '9')

/-- Source `app.py` line 144: `re.sub(r'[^a-z0-9\s]', ' ', combined)` acts
character-wise, replacing every character that is neither lowercase
alphanumeric nor whitespace by a space. -/
def scrub (c : Char) : Char := if isLowerAlnum c || isWs c then c else ' '

/-- Source `app.py` lines 143-145: the `combined` string handed to the
tokenizer — matched paragraphs joined by spaces, lower-cased, scrubbed, and
with whitespace runs collapsed. -/
def combinedText (matched : List Str) : Str :=
  subWs false ((lower (joinSpace matched)).map scrub)

/-- Accumulator loop splitting a string into maximal whitespace-free words;
`cur` is the current word accumulated in reverse. -/
def wordsAux (cur : Str) : Str → List Str
  | [] => if cur.isEmpty then [] else [cur.reverse]
  | c :: rest =>
    if isWs c then
      if cur.isEmpty then wordsAux [] rest else cur.reverse :: wordsAux [] rest
    else wordsAux (c :: cur) rest

/-- Modelled from the spec: NLTK's `word_tokenize` (source `app.py` line 154)
is an external tokenizer resource; spec §4.4 allows "a simple whitespace
split" as a substitute, and on the scrubbed text (containing only lowercase
alphanumerics and whitespace) the two coincide. -/
def word_tokenize (s : Str) : List Str := wordsAux [] s

/-- Model of Python `str.isalnum()`: non-empty and every character
alphanumeric. -/
def pyIsAlnum (w : Str) : Bool := !w.isEmpty && w.all Char.isAlphanum

/-- Source `app.py` lines 149-151: the hard-coded custom boilerplate
stopword terms. -/
def custom_stop : List Str :=
  ["mahindra".toList, "company".toList, "limited".toList, "report".toList,
   "annual".toList, "page".toList, "figure".toList, "table".toList,
   "note".toList, "notes".toList, "financial".toList, "group".toList,
   "india".toList]

/-- Source `app.py` lines 148-154: the filtered token list.  The standard
English stopword list is an external NLTK corpus resource, so it is a
parameter; the combined stopword set is its union with `custom_stop`
(line 152), and a token survives when it is alphanumeric, longer than two
characters and not a stopword (line 154). -/
def buildTokens (english : List Str) (matched : List Str) : List Str :=
  let stop_words := english ++ custom_stop
  (word_tokenize (combinedText matched)).filter fun w =>
    pyIsAlnum w && decide (2 < w.length) && decide (w ∉ stop_words)

/-- Source `app.py` lines 156-158: `pd.Series(tokens).value_counts()` maps
each distinct token to its number of occurrences (the descending-count
presentation order is a display concern; the table itself is the
key-to-count mapping). -/
def freqTable (tokens : List Str) : List (Str × Nat) :=
  tokens.dedup.map fun t => (t, tokens.count t)

/-- The full core pipeline (spec §2 data flow): segmentation, keyword
filtering, tokenization and frequency counting, returning the
MatchedParagraphSet and the TokenFrequencyTable. -/
def fullPipeline (pages keywords : List Str) (minLen : Nat) (english : List Str) :
    List Str × List (Str × Nat) :=
  let paras := segment pages
  let matched := filter_paragraphs paras keywords minLen
  (matched, freqTable (buildTokens english matched))

/-- Model of Python `keywords_input.split(",")`: split on every comma,
keeping empty pieces (`"".split(",") == [""]`). -/
def splitComma : Str → List Str
  | [] => [[]]
  | c :: rest =>
    if c = ',' then [] :: splitComma rest
    else
      match splitComma rest with
      | [] => [[c]]
      | f :: fs => (c :: f) :: fs

/-- Source `app.py` line 121: `[k.strip() for k in keywords_input.split(",") if k.strip()]`. -/
def parseKeywordInput (kwInput : Str) : List Str :=
  (splitComma kwInput).filterMap fun k =>
    let s := strip k
    if s = [] then none else some s

/-- Observable events of one run of the script's main body (source `app.py`
lines 115-160), in the order they are surfaced to the user. -/
inductive Event where
  /-- Line 118: `st.write(f"Total paragraphs extracted: {...}")`. -/
  | totalParagraphs (n : Nat)
  /-- Lines 122-124: empty keyword list, error message and `st.stop()`. -/
  | invalidConfiguration
  /-- Line 128: count of keywords and of matched paragraphs. -/
  | matchedCount (kwCount n : Nat)
  /-- Lines 136-138: no paragraph matched, informational stop. -/
  | noMatches
  /-- Lines 143-160: the matched paragraphs and the token frequency table. -/
  | results (matched : List Str) (freq : List (Str × Nat))
deriving DecidableEq

/-- Source `app.py` lines 115-160, the module top level once PDF bytes are
available: extract paragraphs (and surface their count), then parse and
validate the keywords, then filter, then tokenize and count.  The trace
records the surfaced events in program order. -/
def runScript (pages : List Str) (kwInput : Str) (minLen : Nat) (english : List Str) :
    List Event :=
  let paragraphs := segment pages
  let keywords := parseKeywordInput kwInput
  if keywords = [] then
    [Event.totalParagraphs paragraphs.length, Event.invalidConfiguration]
  else
    let matched := filter_paragraphs paragraphs keywords minLen
    if matched = [] then
      [Event.totalParagraphs paragraphs.length,
       Event.matchedCount keywords.length matched.length, Event.noMatches]
    else
      [Event.totalParagraphs paragraphs.length,
       Event.matchedCount keywords.length matched.length,
       Event.results matched (freqTable (buildTokens english matched))]

/-- The match policy of spec §3: `ANY` (at least one keyword present) or
`ALL` (every keyword present). -/
inductive MatchPolicy where
  | ANY
  | ALL
deriving DecidableEq

/-- Modelled from the spec: the paragraph-acceptance test of §4.2 for a given
policy.  The `ANY` arm is the source's `any(k in low for k in kws)`
(`app.py` line 76); the `ALL` arm is the AND-match variant described in
§1/§4.2, whose script is not part of `src/`, modelled from "include only if
every keyword is found". -/
def policyMatches (policy : MatchPolicy) (kws : List Str) (low : Str) : Bool :=
  match policy with
  | .ANY => kws.any fun k => containsSub k low
  | .ALL => kws.all fun k => containsSub k low

/-- Modelled from the spec: `filterByKeywords` of §4.2, the unified keyword
matcher with an explicit `MatchPolicy`.  Keyword normalisation and the
length/emptiness handling follow the source `filter_paragraphs`; the policy
dispatch follows §4.2. -/
def matchLoopP (policy : MatchPolicy) (kws : List Str) (minLen : Nat) : List Str → List Str
  | [] => []
  | p :: rest =>
    if p.length < minLen then matchLoopP policy kws minLen rest
    else if policyMatches policy kws (lower p) then
      p :: matchLoopP policy kws minLen rest
    else matchLoopP policy kws minLen rest

/-- Modelled from the spec: `filterByKeywords(paragraphs, keywords, policy, minLength)`
of §4.2. -/
def filterByKeywords (paragraphs keywords : List Str) (policy : MatchPolicy)
    (minLen : Nat) : List Str :=
  matchLoopP policy (parse_kws keywords) minLen paragraphs

/-- Specification-side split of §4.1, written independently of `splitNl`:
"split the concatenated text on any run of two or more consecutive newline
characters", by direct recursion on the text. -/
def specSplit : Str → List Str
  | [] => [[]]
  | '\n' :: '\n' :: rest => [] :: specSplit (rest.dropWhile fun c => c == '\n')
  | c :: rest =>
    match specSplit rest with
    | [] => [[c]]
    | f :: fs => (c :: f) :: fs
termination_by s => s.length
decreasing_by
  · have h := (List.dropWhile_suffix (l := rest) (fun c => c == '\n')).length_le
    simp only [List.length_cons]
    omega
  · simp

/-- Specification-side `segment` of §4.1, assembled from its own join
(`List.intercalate`) and split (`specSplit`): concatenate the page texts
with single newlines, split on blank-line runs, trim each fragment, drop the
empties, keep the order. -/
def segmentSpec (pages : List Str) : List Str :=
  ((specSplit (List.intercalate ['\n'] pages)).map strip).filter (fun p => !p.isEmpty)

/-- Prepend a string onto the first fragment of a fragment list (proof
support for relating the two split implementations). -/
def prependFirst (x : Str) : List Str → List Str
  | [] => [x]
  | f :: fs => (x ++ f) :: fs

/-! ### Lemmas about the substring test -/

theorem startsWith_iff : ∀ (hay needle : Str),
    startsWith hay needle = true ↔ ∃ post, hay = needle ++ post
  | hay, [] => by simp [startsWith]
  | [], d :: nd => by simp [startsWith]
  | c :: hay, d :: nd => by
    simp only [startsWith, Bool.and_eq_true, beq_iff_eq, startsWith_iff hay nd]
    constructor
    · rintro ⟨rfl, post, rfl⟩
      exact ⟨post, rfl⟩
    · rintro ⟨post, h⟩
      injection h with h1 h2
      exact ⟨h1, post, h2⟩

theorem containsSub_iff : ∀ (needle hay : Str),
    containsSub needle hay = true ↔ SubstrOf needle hay
  | needle, [] => by
    simp only [containsSub, SubstrOf, List.isEmpty_iff]
    constructor
    · rintro rfl
      exact ⟨[], [], rfl⟩
    · rintro ⟨pre, post, h⟩
      have h2 := List.append_eq_nil.mp h.symm
      exact (List.append_eq_nil.mp h2.1).2
  | needle, c :: rest => by
    simp only [containsSub, Bool.or_eq_true, startsWith_iff, containsSub_iff needle rest,
      SubstrOf]
    constructor
    · rintro (⟨post, h⟩ | ⟨pre, post, h⟩)
      · exact ⟨[], post, by simpa using h⟩
      · exact ⟨c :: pre, post, by simp [h]⟩
    · rintro ⟨pre, post, h⟩
      cases pre with
      | nil => exact Or.inl ⟨post, by simpa using h⟩
      | cons a pre =>
        injection h with h1 h2
        exact Or.inr ⟨pre, post, h2⟩

/-! ### The keyword filter as a subsequence (C5, C9, C2) -/

theorem matchLoop_sublist (kws : List Str) (m : Nat) :
    ∀ ps : List Str, List.Sublist (matchLoop kws m ps) ps
  | [] => List.Sublist.slnil
  | p :: rest => by
    simp only [matchLoop]
    split
    · exact (matchLoop_sublist kws m rest).cons p
    · split
      · exact (matchLoop_sublist kws m rest).cons₂ p
      · exact (matchLoop_sublist kws m rest).cons p

/-- Claim C5: for every input paragraph sequence, keyword set and minimum
length, the list returned by the keyword filter is a subsequence of the
input paragraph sequence — it preserves document order and never reorders
or duplicates paragraphs. -/
theorem claim_c5 (ps kws : List Str) (m : Nat) :
    List.Sublist (filter_paragraphs ps kws m) ps :=
  matchLoop_sublist (parse_kws kws) m ps

theorem matchLoop_nil_kws (m : Nat) : ∀ ps : List Str, matchLoop [] m ps = []
  | [] => rfl
  | p :: rest => by
    simp [matchLoop, matchLoop_nil_kws m rest]

/-- Claim C9: when the keyword list contains no non-empty trimmed term,
`filter_paragraphs` silently returns the empty list — it matches nothing
and raises no error, rather than signalling `InvalidConfiguration` itself. -/
theorem claim_c9 (ps kws : List Str) (m : Nat) (h : parse_kws kws = []) :
    filter_paragraphs ps kws m = [] := by
  unfold filter_paragraphs
  rw [h]
  exact matchLoop_nil_kws m ps

/-- Claim C9 witness: the keyword list `[" "]` trims to nothing, and the
filter returns the empty list on a concrete paragraph list. -/
theorem claim_c9_witness :
    parse_kws [[' ']] = [] ∧ filter_paragraphs [['a']] [[' ']] 0 = [] :=
  ⟨by decide, claim_c9 [['a']] [[' ']] 0 (by decide)⟩

theorem policyMatches_all_any {kws : List Str} {low : Str} (h : kws ≠ [])
    (hall : policyMatches MatchPolicy.ALL kws low = true) :
    policyMatches MatchPolicy.ANY kws low = true := by
  cases kws with
  | nil => exact absurd rfl h
  | cons k ks =>
    simp only [policyMatches, List.all_cons, Bool.and_eq_true] at hall
    simp only [policyMatches, List.any_cons, Bool.or_eq_true]
    exact Or.inl hall.1

theorem matchLoopP_all_sub_any {kws : List Str} {m : Nat} (h : kws ≠ []) :
    ∀ ps : List Str,
      List.Sublist (matchLoopP MatchPolicy.ALL kws m ps) (matchLoopP MatchPolicy.ANY kws m ps)
  | [] => List.Sublist.slnil
  | p :: rest => by
    by_cases hlen : p.length < m
    · simp only [matchLoopP, if_pos hlen]
      exact matchLoopP_all_sub_any h rest
    · by_cases hall : policyMatches MatchPolicy.ALL kws (lower p) = true
      · have hany := policyMatches_all_any h hall
        simp only [matchLoopP, if_neg hlen, if_pos hall, if_pos hany]
        exact (matchLoopP_all_sub_any h rest).cons₂ p
      · by_cases hany : policyMatches MatchPolicy.ANY kws (lower p) = true
        · simp only [matchLoopP, if_neg hlen, if_neg hall, if_pos hany]
          exact (matchLoopP_all_sub_any h rest).cons p
        · simp only [matchLoopP, if_neg hlen, if_neg hall, if_neg hany]
          exact matchLoopP_all_sub_any h rest

/-- Claim C2: for the same paragraphs, keyword set and minimum length, the
`ALL`-policy result of `filterByKeywords` is a subsequence (hence a subset
by paragraph) of the `ANY`-policy result.  A KeywordSet contains at least
one (non-empty, trimmed) term by §3 of the spec, carried here as the
hypothesis on `parse_kws`. -/
theorem claim_c2 (ps kws : List Str) (m : Nat) (h : parse_kws kws ≠ []) :
    List.Sublist (filterByKeywords ps kws MatchPolicy.ALL m)
      (filterByKeywords ps kws MatchPolicy.ANY m) :=
  matchLoopP_all_sub_any h ps

/-- Claim C2 witness: a concrete keyword set with one term. -/
theorem claim_c2_witness :
    parse_kws [['e', 'v']] ≠ [] ∧
      List.Sublist
        (filterByKeywords [['e', 'v', 'e', 'r', 'y']] [['e', 'v']] MatchPolicy.ALL 0)
        (filterByKeywords [['e', 'v', 'e', 'r', 'y']] [['e', 'v']] MatchPolicy.ANY 0) :=
  ⟨by decide, claim_c2 [['e', 'v', 'e', 'r', 'y']] [['e', 'v']] 0 (by decide)⟩

theorem matchLoopP_any_eq (kws : List Str) (m : Nat) :
    ∀ ps : List Str, matchLoopP MatchPolicy.ANY kws m ps = matchLoop kws m ps
  | [] => rfl
  | p :: rest => by
    simp only [matchLoopP, matchLoop, policyMatches, matchLoopP_any_eq kws m rest]

/-- Sanity: the spec-modelled `filterByKeywords` under `ANY` coincides with
the source `filter_paragraphs`. -/
theorem filterByKeywords_any_eq (ps kws : List Str) (m : Nat) :
    filterByKeywords ps kws MatchPolicy.ANY m = filter_paragraphs ps kws m :=
  matchLoopP_any_eq (parse_kws kws) m ps

/-! ### Functional characterisation of the keyword filter (C3) -/

theorem matchLoop_eq_filter (kws : List Str) (m : Nat) :
    ∀ ps : List Str, matchLoop kws m ps =
      ps.filter fun p => decide (m ≤ p.length) && kws.any fun k => containsSub k (lower p)
  | [] => rfl
  | p :: rest => by
    by_cases hlen : p.length < m
    · have hdec : decide (m ≤ p.length) = false := by
        simp only [decide_eq_false_iff_not]
        omega
      simp [matchLoop, if_pos hlen, List.filter_cons, hdec, matchLoop_eq_filter kws m rest]
    · have hdec : decide (m ≤ p.length) = true := by
        simp only [decide_eq_true_eq]
        omega
      by_cases hany : (kws.any fun k => containsSub k (lower p)) = true
      · simp [matchLoop, if_neg hlen, hany, List.filter_cons, hdec,
          matchLoop_eq_filter kws m rest]
      · simp [matchLoop, if_neg hlen, hany, List.filter_cons, hdec,
          matchLoop_eq_filter kws m rest]

theorem mem_parse_kws {kws : List Str} {k : Str} :
    k ∈ parse_kws kws ↔ ∃ k' ∈ kws, strip k' ≠ [] ∧ k = lower (strip k') := by
  simp only [parse_kws, List.mem_filterMap]
  constructor
  · rintro ⟨k', hk', hsome⟩
    by_cases hs : strip k' = []
    · simp [hs] at hsome
    · simp only [hs, if_false, Option.some.injEq] at hsome
      exact ⟨k', hk', hs, hsome.symm⟩
  · rintro ⟨k', hk', hs, rfl⟩
    exact ⟨k', hk', by simp [hs]⟩

/-- Claim C3: under the `ANY` policy with a non-empty keyword list, the
filter excludes every paragraph shorter than `min_len` regardless of
keyword content, and keeps a remaining paragraph exactly when at least one
trimmed keyword occurs, case-insensitively, as a substring (not at word
boundaries) of the paragraph. -/
theorem claim_c3 (ps kws : List Str) (m : Nat) (hne : kws ≠ []) (p : Str) :
    p ∈ filter_paragraphs ps kws m ↔
      p ∈ ps ∧ m ≤ p.length ∧
        ∃ k ∈ kws, strip k ≠ [] ∧ SubstrOf (lower (strip k)) (lower p) := by
  unfold filter_paragraphs
  rw [matchLoop_eq_filter]
  simp only [List.mem_filter, Bool.and_eq_true, decide_eq_true_eq, List.any_eq_true]
  constructor
  · rintro ⟨hp, hlen, k, hk, hc⟩
    rcases mem_parse_kws.mp hk with ⟨k', hk', hs, rfl⟩
    exact ⟨hp, hlen, k', hk', hs, (containsSub_iff _ _).mp hc⟩
  · rintro ⟨hp, hlen, k', hk', hs, hsub⟩
    exact ⟨hp, hlen, lower (strip k'), mem_parse_kws.mpr ⟨k', hk', hs, rfl⟩,
      (containsSub_iff _ _).mpr hsub⟩

/-- Claim C3 witness: the keyword "ev" matches inside "every" (substring,
not word-boundary, matching) at a concrete input. -/
theorem claim_c3_witness :
    ([['e', 'v']] : List Str) ≠ [] ∧
      (['e', 'v', 'e', 'r', 'y'] ∈ filter_paragraphs [['e', 'v', 'e', 'r', 'y']] [['e', 'v']] 3 ↔
        ['e', 'v', 'e', 'r', 'y'] ∈ ([['e', 'v', 'e', 'r', 'y']] : List Str) ∧
          3 ≤ (['e', 'v', 'e', 'r', 'y'] : Str).length ∧
          ∃ k ∈ ([['e', 'v']] : List Str), strip k ≠ [] ∧
            SubstrOf (lower (strip k)) (lower ['e', 'v', 'e', 'r', 'y'])) :=
  ⟨by decide,
    claim_c3 [['e', 'v', 'e', 'r', 'y']] [['e', 'v']] 3 (by decide) ['e', 'v', 'e', 'r', 'y']⟩

/-! ### Segmentation output is never blank (C6) -/

theorem head_of_dropWhile_false {α : Type} {p : α → Bool} {l : List α} {h : α}
    (hh : (l.dropWhile p).head? = some h) : p h = false := by
  have hm := List.head?_dropWhile_not p l
  rw [hh] at hm
  exact hm

theorem strip_ne_nil_nonWs {s : Str} (hne : strip s ≠ []) :
    ∃ c ∈ strip s, isWs c = false := by
  rcases hx : strip s with _ | ⟨c, cs⟩
  · exact absurd hx hne
  · refine ⟨c, by simp [hx], ?_⟩
    obtain ⟨t, ht⟩ := List.dropWhile_suffix (l := (lstrip s).reverse) isWs
    have hv : strip s ++ t.reverse = lstrip s := by
      have h2 := congrArg List.reverse ht
      simpa [strip, rstrip, List.reverse_append] using h2
    have hc : (List.dropWhile isWs s).head? = some c := by
      have h3 : lstrip s = c :: (cs ++ t.reverse) := by
        rw [← hv, hx]
        simp
      simpa [lstrip] using congrArg List.head? h3
    exact head_of_dropWhile_false hc

/-- Claim C6: no paragraph returned by `segment` is empty or consists only
of whitespace characters — every returned paragraph contains a
non-whitespace character. -/
theorem claim_c6 (pages : List Str) (p : Str) (hp : p ∈ segment pages) :
    ∃ c ∈ p, isWs c = false := by
  unfold segment at hp
  rw [List.mem_filter] at hp
  obtain ⟨hmem, hne⟩ := hp
  have hpe : p ≠ [] := by simpa [List.isEmpty_iff] using hne
  rcases List.mem_map.mp hmem with ⟨w, hw, rfl⟩
  exact strip_ne_nil_nonWs hpe

/-- Claim C6 witness: a concrete one-page input and its single extracted
paragraph. -/
theorem claim_c6_witness :
    (['a', 'b', 'c'] ∈ segment [['a', 'b', 'c']]) ∧
      ∃ c ∈ (['a', 'b', 'c'] : Str), isWs c = false :=
  ⟨by decide, claim_c6 [['a', 'b', 'c']] ['a', 'b', 'c'] (by decide)⟩

/-! ### Token frequency table key invariants (C7) -/

theorem wordsAux_mem : ∀ (s cur w : Str), w ∈ wordsAux cur s →
    ∀ c ∈ w, c ∈ cur ∨ (c ∈ s ∧ isWs c = false)
  | [], cur, w => by
    intro hw c hc
    by_cases hcur : cur.isEmpty
    · simp [wordsAux, hcur] at hw
    · simp only [wordsAux, if_neg hcur, List.mem_singleton] at hw
      subst hw
      exact Or.inl (List.mem_reverse.mp hc)
  | a :: s, cur, w => by
    intro hw c hc
    simp only [wordsAux] at hw
    by_cases ha : isWs a = true
    · rw [if_pos ha] at hw
      by_cases hcur : cur.isEmpty = true
      · rw [if_pos hcur] at hw
        rcases wordsAux_mem s [] w hw c hc with h | ⟨h1, h2⟩
        · simp at h
        · exact Or.inr ⟨List.mem_cons_of_mem _ h1, h2⟩
      · rw [if_neg hcur] at hw
        rcases List.mem_cons.mp hw with rfl | hw'
        · exact Or.inl (List.mem_reverse.mp hc)
        · rcases wordsAux_mem s [] w hw' c hc with h | ⟨h1, h2⟩
          · simp at h
          · exact Or.inr ⟨List.mem_cons_of_mem _ h1, h2⟩
    · rw [if_neg ha] at hw
      rcases wordsAux_mem s (a :: cur) w hw c hc with h | ⟨h1, h2⟩
      · rcases List.mem_cons.mp h with rfl | h'
        · exact Or.inr ⟨List.mem_cons_self _ _, by simpa using ha⟩
        · exact Or.inl h'
      · exact Or.inr ⟨List.mem_cons_of_mem _ h1, h2⟩

theorem subWs_mem {c : Char} : ∀ (b : Bool) (s : Str), c ∈ subWs b s → c = ' ' ∨ c ∈ s := by
  intro b s
  induction s generalizing b with
  | nil => intro hc; simp [subWs] at hc
  | cons a s ih =>
    intro hc
    by_cases ha : isWs a = true
    · cases b with
      | true =>
        simp only [subWs, ha, if_true] at hc
        rcases ih true hc with h | h
        · exact Or.inl h
        · exact Or.inr (List.mem_cons_of_mem _ h)
      | false =>
        simp only [subWs, ha, if_true, Bool.false_eq_true, if_false, List.mem_cons] at hc
        rcases hc with rfl | hc'
        · exact Or.inl rfl
        · rcases ih true hc' with h | h
          · exact Or.inl h
          · exact Or.inr (List.mem_cons_of_mem _ h)
    · have ha' : isWs a = false := by simpa using ha
      simp [subWs, ha'] at hc
      rcases hc with rfl | hc'
      · exact Or.inr (List.mem_cons_self _ _)
      · rcases ih false hc' with h | h
        · exact Or.inl h
        · exact Or.inr (List.mem_cons_of_mem _ h)

theorem scrubbed_mem {t : Str} {c : Char} (hc : c ∈ t.map scrub) :
    isLowerAlnum c = true ∨ isWs c = true := by
  rcases List.mem_map.mp hc with ⟨d, hd, rfl⟩
  unfold scrub
  by_cases h : (isLowerAlnum d || isWs d) = true
  · rw [if_pos h]
    simpa using h
  · rw [if_neg h]
    right
    decide

theorem combinedText_mem {matched : List Str} {c : Char} (hc : c ∈ combinedText matched) :
    isLowerAlnum c = true ∨ isWs c = true := by
  unfold combinedText at hc
  rcases subWs_mem false _ hc with rfl | hc'
  · right
    decide
  · exact scrubbed_mem hc'

theorem buildTokens_mem {english matched : List Str} {w : Str}
    (hw : w ∈ buildTokens english matched) :
    (∀ c ∈ w, isLowerAlnum c = true) ∧ 2 < w.length ∧ w ∉ english ++ custom_stop := by
  simp only [buildTokens, List.mem_filter, Bool.and_eq_true, decide_eq_true_eq] at hw
  obtain ⟨hmem, ⟨halnum, hlen⟩, hnot⟩ := hw
  refine ⟨?_, hlen, hnot⟩
  intro c hcw
  rcases wordsAux_mem _ [] w hmem c hcw with h | ⟨h1, h2⟩
  · simp at h
  · rcases combinedText_mem h1 with h3 | h3
    · exact h3
    · rw [h2] at h3
      cases h3

/-- Claim C7: every key of the token frequency table built from a matched
paragraph set is a lowercase alphanumeric-only string of length strictly
greater than 2 that is not in the combined stopword set (the supplied
English stopword list unioned with the custom boilerplate terms). -/
theorem claim_c7 (english matched : List Str) (key : Str) (n : Nat)
    (h : (key, n) ∈ freqTable (buildTokens english matched)) :
    (∀ c ∈ key, isLowerAlnum c = true) ∧ 2 < key.length ∧
      key ∉ english ++ custom_stop := by
  unfold freqTable at h
  rcases List.mem_map.mp h with ⟨t, ht, heq⟩
  injection heq with h1 h2
  subst h1
  exact buildTokens_mem (List.mem_dedup.mp ht)

/-- Claim C7 witness: a concrete matched paragraph producing the key
"abcx". -/
theorem claim_c7_witness :
    ((['a', 'b', 'c', 'x'], 1) ∈ freqTable (buildTokens [] [['a', 'b', 'c', 'x']])) ∧
      (∀ c ∈ (['a', 'b', 'c', 'x'] : Str), isLowerAlnum c = true) ∧
      2 < (['a', 'b', 'c', 'x'] : Str).length ∧
      (['a', 'b', 'c', 'x'] : Str) ∉ ([] : List Str) ++ custom_stop :=
  ⟨by decide, claim_c7 [] [['a', 'b', 'c', 'x']] ['a', 'b', 'c', 'x'] 1 (by decide)⟩

/-! ### Segmentation agrees with the specification description (C4) -/

theorem specSplit_nil : specSplit [] = [[]] := by
  simp [specSplit]

theorem specSplit_nlnl (rest : Str) :
    specSplit ('\n' :: '\n' :: rest) =
      [] :: specSplit (rest.dropWhile fun c => c == '\n') := by
  simp [specSplit]

theorem specSplit_ne_nil (s : Str) : specSplit s ≠ [] := by
  rw [specSplit.eq_def]
  split
  · simp
  · simp
  · split <;> simp

theorem specSplit_cons_ne {c : Char} (hc : c ≠ '\n') (rest : Str) :
    specSplit (c :: rest) = prependFirst [c] (specSplit rest) := by
  rw [specSplit.eq_def]
  split
  · rename_i heq
    simp at heq
  · rename_i rest' heq
    injection heq with h1 h2
    exact absurd h1 hc
  · rename_i c' rest' heq
    injection heq with h1 h2
    subst h1
    subst h2
    cases hx : specSplit rest with
    | nil => simp [prependFirst]
    | cons f fs => simp [prependFirst]

theorem specSplit_nl_cons_ne {c : Char} (hc : c ≠ '\n') (rest : Str) :
    specSplit ('\n' :: c :: rest) = prependFirst ['\n'] (specSplit (c :: rest)) := by
  rw [specSplit.eq_def]
  split
  · rename_i heq
    simp at heq
  · rename_i rest' heq
    injection heq with h1 h2
    injection h2 with h3 h4
    exact absurd h3 hc
  · rename_i c' rest' heq
    injection heq with h1 h2
    subst h1
    subst h2
    cases hx : specSplit (c :: rest) with
    | nil => simp [prependFirst]
    | cons f fs => simp [prependFirst]

theorem specSplit_nl_nil : specSplit ['\n'] = [['\n']] := by
  rw [specSplit.eq_def]
  split
  · rename_i heq
    simp at heq
  · rename_i rest' heq
    injection heq with h1 h2
    simp at h2
  · rename_i c' rest' heq
    injection heq with h1 h2
    subst h1
    subst h2
    rw [specSplit_nil]

theorem joinPages_eq : ∀ ts : List Str, joinPages ts = List.intercalate ['\n'] ts
  | [] => by simp [joinPages, List.intercalate]
  | [t] => by simp [joinPages, List.intercalate]
  | t :: t' :: ts => by
    have ih := joinPages_eq (t' :: ts)
    simp only [joinPages] at ih ⊢
    rw [ih]
    simp [List.intercalate, List.intersperse]

theorem dropWhile_nl_replicate (k : Nat) (l : Str) :
    List.dropWhile (fun c => c == '\n') (List.replicate k '\n' ++ l) =
      List.dropWhile (fun c => c == '\n') l := by
  apply List.dropWhile_append_of_pos
  intro a ha
  rw [List.eq_of_mem_replicate ha]
  simp

theorem replicate_nl_shift (n : Nat) (l : Str) :
    List.replicate n '\n' ++ '\n' :: l = List.replicate (n + 1) '\n' ++ l := by
  rw [List.replicate_succ']
  simp

theorem specSplit_blank (k : Nat) (rest : Str) :
    specSplit (List.replicate (k + 2) '\n' ++ rest) =
      [] :: specSplit (rest.dropWhile fun c => c == '\n') := by
  have h1 : List.replicate (k + 2) '\n' ++ rest =
      '\n' :: '\n' :: (List.replicate k '\n' ++ rest) := by
    simp [List.replicate_succ]
  rw [h1, specSplit_nlnl, dropWhile_nl_replicate]

theorem prependFirst_append (x y : Str) (L : List Str) :
    prependFirst x (prependFirst y L) = prependFirst (x ++ y) L := by
  cases L <;> simp [prependFirst]

theorem splitNl_eq : ∀ (s cur : Str) (nl : Nat),
    splitNl cur nl s = prependFirst cur.reverse (specSplit (List.replicate nl '\n' ++ s))
  | [], cur, nl => by
    by_cases h2 : 2 ≤ nl
    · obtain ⟨k, rfl⟩ : ∃ k, nl = k + 2 := ⟨nl - 2, by omega⟩
      rw [specSplit_blank k []]
      simp only [splitNl, if_pos h2, List.dropWhile_nil, specSplit_nil, prependFirst]
      simp
    · have hcase : nl = 0 ∨ nl = 1 := by omega
      rcases hcase with rfl | rfl
      · simp [splitNl, specSplit_nil, prependFirst]
      · simp only [splitNl]
        rw [if_neg h2]
        have h1 : List.replicate 1 '\n' ++ ([] : Str) = ['\n'] := by simp
        rw [h1, specSplit_nl_nil]
        simp [prependFirst]
  | c :: rest, cur, nl => by
    by_cases hc : c = '\n'
    · subst hc
      have hstep : splitNl cur nl ('\n' :: rest) = splitNl cur (nl + 1) rest := by
        simp [splitNl]
      rw [hstep, splitNl_eq rest cur (nl + 1), replicate_nl_shift]
    · by_cases h2 : 2 ≤ nl
      · simp only [splitNl, if_neg hc, if_pos h2]
        rw [splitNl_eq rest [c] 0]
        obtain ⟨k, rfl⟩ : ∃ k, nl = k + 2 := ⟨nl - 2, by omega⟩
        rw [specSplit_blank k (c :: rest)]
        have hd : (c :: rest).dropWhile (fun x => x == '\n') = c :: rest := by
          rw [List.dropWhile_cons_of_neg]
          simp [hc]
        rw [hd, specSplit_cons_ne hc rest]
        simp [prependFirst]
      · simp only [splitNl, if_neg hc, if_neg h2]
        rw [splitNl_eq rest (c :: (List.replicate nl '\n' ++ cur)) 0]
        have hcase : nl = 0 ∨ nl = 1 := by omega
        rcases hcase with rfl | rfl
        · simp only [List.replicate_zero, List.nil_append]
          rw [specSplit_cons_ne hc rest, prependFirst_append]
          rw [List.reverse_cons]
        · rw [List.replicate_one]
          simp only [List.singleton_append, List.replicate_zero, List.nil_append]
          rw [specSplit_nl_cons_ne hc rest, specSplit_cons_ne hc rest,
            prependFirst_append, prependFirst_append]
          simp [List.reverse_cons]

theorem rawSplit_eq (s : Str) : rawSplit s = specSplit s := by
  unfold rawSplit
  rw [splitNl_eq s [] 0]
  cases hx : specSplit s with
  | nil => exact absurd hx (specSplit_ne_nil s)
  | cons f fs =>
    have h0 : List.replicate 0 '\n' ++ s = s := by simp
    rw [h0, hx]
    simp [prependFirst]

theorem splitNl_mem_chars : ∀ (s cur : Str) (nl : Nat) (w : Str), w ∈ splitNl cur nl s →
    ∀ c ∈ w, c ∈ s ∨ c ∈ cur ∨ c = '\n'
  | [], cur, nl, w => by
    intro hw c hc
    simp only [splitNl] at hw
    by_cases h2 : 2 ≤ nl
    · rw [if_pos h2] at hw
      rcases List.mem_cons.mp hw with rfl | hw'
      · exact Or.inr (Or.inl (List.mem_reverse.mp hc))
      · simp at hw'
        subst hw'
        simp at hc
    · rw [if_neg h2] at hw
      simp only [List.mem_singleton] at hw
      subst hw
      rcases List.mem_append.mp (List.mem_reverse.mp hc) with h | h
      · exact Or.inr (Or.inr (List.eq_of_mem_replicate h))
      · exact Or.inr (Or.inl h)
  | a :: s, cur, nl, w => by
    intro hw c hc
    simp only [splitNl] at hw
    by_cases ha : a = '\n'
    · rw [if_pos ha] at hw
      rcases splitNl_mem_chars s cur (nl + 1) w hw c hc with h | h
      · exact Or.inl (List.mem_cons_of_mem _ h)
      · exact Or.inr h
    · rw [if_neg ha] at hw
      by_cases h2 : 2 ≤ nl
      · rw [if_pos h2] at hw
        rcases List.mem_cons.mp hw with rfl | hw'
        · exact Or.inr (Or.inl (List.mem_reverse.mp hc))
        · rcases splitNl_mem_chars s [a] 0 w hw' c hc with h | h | h
          · exact Or.inl (List.mem_cons_of_mem _ h)
          · simp only [List.mem_singleton] at h
            subst h
            exact Or.inl (List.mem_cons_self _ _)
          · exact Or.inr (Or.inr h)
      · rw [if_neg h2] at hw
        rcases splitNl_mem_chars s (a :: (List.replicate nl '\n' ++ cur)) 0 w hw c hc
          with h | h | h
        · exact Or.inl (List.mem_cons_of_mem _ h)
        · rcases List.mem_cons.mp h with rfl | h'
          · exact Or.inl (List.mem_cons_self _ _)
          · rcases List.mem_append.mp h' with h'' | h''
            · exact Or.inr (Or.inr (List.eq_of_mem_replicate h''))
            · exact Or.inr (Or.inl h'')
        · exact Or.inr (Or.inr h)

theorem joinPages_all_nl : ∀ (pages : List Str), (∀ p ∈ pages, p = []) →
    ∀ c ∈ joinPages pages, c = '\n'
  | [], h => by simp [joinPages]
  | [t], h => by
    intro c hc
    have ht := h t (List.mem_cons_self _ _)
    simp [joinPages, ht] at hc
  | t :: t' :: ts, h => by
    intro c hc
    simp only [joinPages] at hc
    rcases List.mem_append.mp hc with h1 | h1
    · have ht := h t (List.mem_cons_self _ _)
      rw [ht] at h1
      simp at h1
    · rcases List.mem_cons.mp h1 with rfl | h2
      · rfl
      · exact joinPages_all_nl (t' :: ts) (fun p hp => h p (List.mem_cons_of_mem _ hp)) c h2

theorem strip_all_ws {s : Str} (h : ∀ c ∈ s, isWs c = true) : strip s = [] := by
  have h1 : lstrip s = [] := List.dropWhile_eq_nil_iff.mpr h
  unfold strip
  rw [h1]
  rfl

theorem segment_all_empty {pages : List Str} (h : ∀ p ∈ pages, p = []) :
    segment pages = [] := by
  unfold segment
  rw [List.filter_eq_nil_iff]
  intro q hq
  rcases List.mem_map.mp hq with ⟨w, hw, rfl⟩
  have hall : ∀ c ∈ w, isWs c = true := by
    intro c hc
    rcases splitNl_mem_chars (joinPages pages) [] 0 w hw c hc with h1 | h1 | h1
    · rw [joinPages_all_nl pages h c h1]
      decide
    · simp at h1
    · rw [h1]
      decide
  rw [strip_all_ws hall]
  simp

/-- Claim C4: `segment` concatenates the page texts in page order with a
single newline between pages, splits on every run of two or more
consecutive newlines, trims each fragment, drops the fragments that are
empty after trimming and returns the survivors in order (proved as equality
with `segmentSpec`, an independent rendering of the spec's §4.1
description); and an all-empty input yields the empty sequence. -/
theorem claim_c4 (pages : List Str) :
    segment pages = segmentSpec pages ∧
      ((∀ p ∈ pages, p = []) → segment pages = []) := by
  constructor
  · unfold segment segmentSpec
    rw [rawSplit_eq, joinPages_eq]
  · exact fun h => segment_all_empty h

/-- Claim C4 witness: two empty pages segment to the empty paragraph list,
in agreement with the specification-side definition. -/
theorem claim_c4_witness :
    (∀ p ∈ ([[], []] : List Str), p = []) ∧
      segment [[], []] = segmentSpec [[], []] ∧ segment [[], []] = [] :=
  ⟨by decide, (claim_c4 [[], []]).1, (claim_c4 [[], []]).2 (by decide)⟩

/-! ### Idempotence of display normalisation (C10) -/

theorem subWs_ws_space : ∀ (b : Bool) (s : Str) (c : Char), c ∈ subWs b s →
    isWs c = true → c = ' ' := by
  intro b s
  induction s generalizing b with
  | nil =>
    intro c hc _
    simp [subWs] at hc
  | cons a s ih =>
    intro c hc hws
    by_cases ha : isWs a = true
    · cases b with
      | true =>
        simp only [subWs, ha, if_true] at hc
        exact ih true c hc hws
      | false =>
        simp [subWs, ha] at hc
        rcases hc with rfl | hc'
        · rfl
        · exact ih true c hc' hws
    · have ha' : isWs a = false := by simpa using ha
      simp [subWs, ha'] at hc
      rcases hc with rfl | hc'
      · simp [hws] at ha'
      · exact ih false c hc' hws

theorem head?_subWs_true : ∀ (s : Str) (c : Char), (subWs true s).head? = some c →
    isWs c = false := by
  intro s
  induction s with
  | nil =>
    intro c hc
    simp [subWs] at hc
  | cons a s ih =>
    intro c hc
    by_cases ha : isWs a = true
    · simp only [subWs, ha, if_true] at hc
      exact ih c hc
    · have ha' : isWs a = false := by simpa using ha
      simp [subWs, ha'] at hc
      exact hc ▸ ha'

theorem chain'_subWs : ∀ (b : Bool) (s : Str),
    List.Chain' (fun x y => isWs x = false ∨ isWs y = false) (subWs b s) := by
  intro b s
  induction s generalizing b with
  | nil => simp [subWs]
  | cons a s ih =>
    by_cases ha : isWs a = true
    · cases b with
      | true => simpa only [subWs, ha, if_true] using ih true
      | false =>
        have hss : subWs false (a :: s) = ' ' :: subWs true s := by simp [subWs, ha]
        rw [hss, List.chain'_cons']
        refine ⟨?_, ih true⟩
        intro y hy
        exact Or.inr (head?_subWs_true s y (Option.mem_def.mp hy))
    · have ha' : isWs a = false := by simpa using ha
      have hss : subWs b (a :: s) = a :: subWs false s := by simp [subWs, ha']
      rw [hss, List.chain'_cons']
      exact ⟨fun y _ => Or.inl ha', ih false⟩

theorem subWs_id : ∀ (s : Str) (b : Bool),
    (∀ c ∈ s, isWs c = true → c = ' ') →
    List.Chain' (fun x y => isWs x = false ∨ isWs y = false) s →
    (b = true → ∀ c, s.head? = some c → isWs c = false) →
    subWs b s = s := by
  intro s
  induction s with
  | nil =>
    intro b _ _ _
    rfl
  | cons a s ih =>
    intro b hsp hch hhd
    by_cases ha : isWs a = true
    · cases b with
      | true =>
        have := hhd rfl a rfl
        simp [ha] at this
      | false =>
        have ha_sp : a = ' ' := hsp a (List.mem_cons_self _ _) ha
        have hrec : subWs true s = s := by
          apply ih true
          · exact fun c hc => hsp c (List.mem_cons_of_mem _ hc)
          · exact (List.chain'_cons'.mp hch).2
          · intro _ c hc
            rcases (List.chain'_cons'.mp hch).1 c (Option.mem_def.mpr hc) with h | h
            · rw [ha] at h
              cases h
            · exact h
        calc subWs false (a :: s) = ' ' :: subWs true s := by simp [subWs, ha]
          _ = a :: s := by rw [hrec, ha_sp]
    · have ha' : isWs a = false := by simpa using ha
      have hrec : subWs false s = s := by
        apply ih false
        · exact fun c hc => hsp c (List.mem_cons_of_mem _ hc)
        · exact (List.chain'_cons'.mp hch).2
        · intro hfalse
          simp at hfalse
      calc subWs b (a :: s) = a :: subWs false s := by simp [subWs, ha']
        _ = a :: s := by rw [hrec]

theorem dropWhile_eq_self_of_head {α : Type} {p : α → Bool} {l : List α}
    (h : ∀ c, l.head? = some c → p c = false) : l.dropWhile p = l := by
  cases l with
  | nil => rfl
  | cons a l =>
    have ha := h a rfl
    simp [List.dropWhile_cons, ha]

theorem mem_strip {s : Str} {c : Char} (hc : c ∈ strip s) : c ∈ s := by
  unfold strip rstrip lstrip at hc
  have h2 := (List.dropWhile_suffix isWs).subset (List.mem_reverse.mp hc)
  exact (List.dropWhile_suffix isWs).subset (List.mem_reverse.mp h2)

theorem chain'_suffix {α : Type} {R : α → α → Prop} {l l' : List α}
    (h : List.Chain' R l) (hs : l' <:+ l) : List.Chain' R l' := by
  obtain ⟨t, rfl⟩ := hs
  exact (List.chain'_append.mp h).2.1

theorem chain'_reverse_ws {l : Str}
    (h : List.Chain' (fun x y => isWs x = false ∨ isWs y = false) l) :
    List.Chain' (fun x y => isWs x = false ∨ isWs y = false) l.reverse := by
  rw [List.chain'_reverse]
  exact h.imp fun a b hab => hab.symm

theorem chain'_strip {s : Str}
    (h : List.Chain' (fun x y => isWs x = false ∨ isWs y = false) s) :
    List.Chain' (fun x y => isWs x = false ∨ isWs y = false) (strip s) := by
  unfold strip rstrip lstrip
  exact chain'_reverse_ws
    (chain'_suffix (chain'_reverse_ws (chain'_suffix h (List.dropWhile_suffix isWs)))
      (List.dropWhile_suffix isWs))

theorem strip_head_nonWs {s : Str} {c : Char} {cs : Str} (hx : strip s = c :: cs) :
    isWs c = false := by
  obtain ⟨t, ht⟩ := List.dropWhile_suffix (l := (lstrip s).reverse) isWs
  have hv : strip s ++ t.reverse = lstrip s := by
    have h2 := congrArg List.reverse ht
    simpa [strip, rstrip, List.reverse_append] using h2
  have hc : (List.dropWhile isWs s).head? = some c := by
    have h3 : lstrip s = c :: (cs ++ t.reverse) := by
      rw [← hv, hx]
      simp
    simpa [lstrip] using congrArg List.head? h3
  exact head_of_dropWhile_false hc

theorem strip_getLast_nonWs {s : Str} {c : Char} (hx : (strip s).getLast? = some c) :
    isWs c = false := by
  unfold strip rstrip at hx
  rw [List.getLast?_reverse] at hx
  exact head_of_dropWhile_false hx

theorem lstrip_eq_self {s : Str} (h : ∀ c, s.head? = some c → isWs c = false) :
    lstrip s = s := dropWhile_eq_self_of_head h

theorem rstrip_eq_self {s : Str} (h : ∀ c, s.getLast? = some c → isWs c = false) :
    rstrip s = s := by
  have hh : ∀ c, s.reverse.head? = some c → isWs c = false := by
    intro c hc
    rw [List.head?_reverse] at hc
    exact h c hc
  unfold rstrip
  rw [dropWhile_eq_self_of_head hh, List.reverse_reverse]

theorem strip_idem (s : Str) : strip (strip s) = strip s := by
  have h1 : lstrip (strip s) = strip s := by
    apply lstrip_eq_self
    intro c hc
    cases hx : strip s with
    | nil =>
      rw [hx] at hc
      cases hc
    | cons d ds =>
      rw [hx] at hc
      simp only [List.head?_cons, Option.some.injEq] at hc
      exact hc ▸ strip_head_nonWs hx
  show rstrip (lstrip (strip s)) = strip s
  rw [h1]
  apply rstrip_eq_self
  intro c hc
  exact strip_getLast_nonWs hc

/-- Claim C10: `normalize_text` (collapse whitespace runs to a single
space, then trim) is idempotent. -/
theorem claim_c10 (t : Str) : normalize_text (normalize_text t) = normalize_text t := by
  unfold normalize_text
  have hsp : ∀ c ∈ strip (subWs false t), isWs c = true → c = ' ' :=
    fun c hc hws => subWs_ws_space false t c (mem_strip hc) hws
  have hch : List.Chain' (fun x y => isWs x = false ∨ isWs y = false)
      (strip (subWs false t)) := chain'_strip (chain'_subWs false t)
  rw [subWs_id _ false hsp hch (by intro h; simp at h)]
  exact strip_idem _

/-! ### Empty keyword configuration at the script level (C1) -/

/-- Claim C1 counterexample: on a concrete run whose raw keyword string
yields no non-empty trimmed terms, the script's event trace begins with the
surfaced segmentation output (the extracted-paragraph count) and only then
shows the `InvalidConfiguration` error — segmentation output IS computed
for such a run, contradicting the claim that it never is. -/
theorem claim_c1_counterexample :
    parseKeywordInput [] = [] ∧
      runScript [['h', 'i', ' ', 'y', 'o', 'u']] [] 50 [] =
        [Event.totalParagraphs 1, Event.invalidConfiguration] ∧
      Event.totalParagraphs 1 ∈ runScript [['h', 'i', ' ', 'y', 'o', 'u']] [] 50 [] := by
  decide

/-- Claim C1 (amended): if the raw comma-separated keyword string yields no
non-empty trimmed terms, the run fails with the `InvalidConfiguration`
condition before keyword filtering, tokenization and frequency counting —
but paragraph segmentation is performed first, and its output count is
surfaced before the error. -/
theorem claim_c1 (pages : List Str) (kwInput : Str) (minLen : Nat)
    (english : List Str) (h : parseKeywordInput kwInput = []) :
    runScript pages kwInput minLen english =
      [Event.totalParagraphs (segment pages).length, Event.invalidConfiguration] := by
  unfold runScript
  rw [h]
  simp

/-- Claim C1 witness: the empty keyword string on a concrete page. -/
theorem claim_c1_witness :
    parseKeywordInput [] = [] ∧
      runScript [['o', 'k']] [] 7 [] =
        [Event.totalParagraphs (segment [['o', 'k']]).length, Event.invalidConfiguration] :=
  ⟨by decide, claim_c1 [['o', 'k']] [] 7 [] (by decide)⟩

/-- Claim C8: the pipeline is deterministic and side-effect-free — it is
modelled as a pure function of the page texts, keyword set, minimum length
and stopword configuration, so two runs on identical inputs yield identical
MatchedParagraphSet and TokenFrequencyTable. -/
theorem claim_c8 (pages pages' kws kws' : List Str) (m m' : Nat)
    (en en' : List Str) (hp : pages = pages') (hk : kws = kws') (hm : m = m')
    (he : en = en') :
    fullPipeline pages kws m en = fullPipeline pages' kws' m' en' := by
  subst hp hk hm he
  rfl

/-- Claim C8 witness: two textually separate runs on identical concrete
inputs produce identical results. -/
theorem claim_c8_witness :
    ([['a', 'b', 'c']] : List Str) = [['a', 'b', 'c']] ∧
      fullPipeline [['a', 'b', 'c']] [['a']] 0 [] = fullPipeline [['a', 'b', 'c']] [['a']] 0 [] :=
  ⟨rfl, claim_c8 [['a', 'b', 'c']] [['a', 'b', 'c']] [['a']] [['a']] 0 0 [] [] rfl rfl rfl rfl⟩

end PdfApp
